import Mathlib

/-!
# Verification of core operon components

A shallow embedding, in Lean 4, of the parts of the operon symbolic-regression
code base that the specification's claims are about:

* the dominance-degree non-dominated sorter
  (`source/operators/non_dominated_sorter/dominance_degree_sort.cpp`);
* the reverse-mode derivative table for `Mul` and `Div`
  (`include/operon/autodiff/reverse/derivatives.hpp`);
* the `Grow` tree creator (`src/operators/initialization.hpp`);
* the generational loop of `GeneticProgrammingAlgorithm::Run`
  (`include/operon/algorithms/gp.hpp`).

Floating-point scalars are modelled as rationals (the claims under scrutiny
only use ordering, equality and field operations on them); machine `int64_t`
matrix entries are modelled as `Nat`, which is safe because every matrix entry
produced by the algorithm is a count bounded by the number of objectives.
-/

namespace Operon

/-! ## Dominance-degree non-dominated sorting

Embeds `dominance_degree_sort.cpp`.  A population is a list of fitness
vectors; `fit pop i k` is `pop[i][k]` (objective `k` of individual `i`).
Matrices are modelled as total functions `Nat → Nat → Nat`; the algorithm
only ever reads them at indices below the population size. -/

abbrev Fitness := List ℚ

def fit (pop : List Fitness) (i k : Nat) : ℚ := (pop.getD i []).getD k 0

abbrev Mat := Nat → Nat → Nat

def zeroMat : Mat := fun _ _ => 0

/-- `c.row(b(0)).fill(1)`: set every entry of row `dst` to 1. -/
def fillRow (c : Mat) (dst : Nat) : Mat := fun p q => if p = dst then 1 else c p q

/-- `c.row(b(i)) = c.row(b(i-1))`: copy row `src` over row `dst`. -/
def copyRow (c : Mat) (dst src : Nat) : Mat :=
  fun p q => if p = dst then c src q else c p q

/-- `for (j = i; j < n; ++j) c(b(i), b(j)) = 1`: set row `dst` to 1 at the
columns listed in `cols`. -/
def setRowOnes (c : Mat) (dst : Nat) (cols : List Nat) : Mat :=
  fun p q => if p = dst ∧ q ∈ cols then 1 else c p q

/-- The `for (i = 1; i < n; ++i)` loop of `ComputeComparisonMatrix`:
walk the sorted index order; on an equal-value run copy the previous
index's row, otherwise set the row to 1 at the current suffix of the
sorted order. -/
def compLoop (val : Nat → ℚ) : Nat → List Nat → Mat → Mat
  | _, [], c => c
  | prev, x :: xs, c =>
    if val x = val prev then compLoop val x xs (copyRow c x prev)
    else compLoop val x xs (setRowOnes c x (x :: xs))

/-- `idx.col(k)` after the `std::sort` in `DominanceDegreeSorter::Sort`:
the population indices sorted ascending by objective `k`.  `std::sort`
leaves the relative order of equal keys unspecified; every lemma below
depends only on sortedness and being a permutation of the index range,
so any sorted order yields the same matrices. -/
def objOrder (pop : List Fitness) (k : Nat) : List Nat :=
  List.insertionSort (fun a b => fit pop a k ≤ fit pop b k) (List.range pop.length)

/-- `ComputeComparisonMatrix(pop, idx, k)`. -/
def ComputeComparisonMatrix (pop : List Fitness) (k : Nat) : Mat :=
  match objOrder pop k with
  | [] => zeroMat
  | b0 :: rest => compLoop (fun i => fit pop i k) b0 rest (fillRow zeroMat b0)

/-- `ComparisonMatrixSum(pop, idx)` for `m` objectives. -/
def ComparisonMatrixSum (pop : List Fitness) (m : Nat) : Mat :=
  fun p q => (List.range m).foldl (fun acc k => acc + ComputeComparisonMatrix pop k p q) 0

/-- `ComputeDegreeMatrix(pop, idx)`: the summed matrix with every symmetric
pair of `m`-valued cells zeroed.  The C++ double loop visits each unordered
pair `(i, j)` with `j ≥ i` exactly once and writes both `(i, j)` and
`(j, i)`; since the guard is symmetric in `i` and `j` this is the same as
the pointwise definition below. -/
def ComputeDegreeMatrix (pop : List Fitness) (m : Nat) : Mat :=
  fun p q =>
    if ComparisonMatrixSum pop m p q = m ∧ ComparisonMatrixSum pop m q p = m then 0
    else ComparisonMatrixSum pop m p q

/-- The `std::all_of` membership test for the current front:
`d(j, i) < m` for every remaining index `j`. -/
def frontTest (d : Mat) (m : Nat) (tmp : List Nat) (i : Nat) : Bool :=
  tmp.all (fun j => d j i < m)

/-- The `while (count < n)` front-peeling loop.  The C++ loop has no fuel:
it runs until every index is assigned (and would not terminate if a front
ever came out empty, which the termination theorem below rules out under
the sorter's precondition).  `fuel = n` iterations always suffice because
every round assigns at least one index. -/
def peel (d : Mat) (m : Nat) : Nat → List Nat → List (List Nat)
  | 0, _ => []
  | fuel + 1, tmp =>
    if tmp.isEmpty then []
    else
      tmp.filter (frontTest d m tmp) ::
        peel d m fuel (tmp.filter (fun i => !frontTest d m tmp i))

/-- `DominanceDegreeSorter::Sort`: reads the number of objectives from the
first individual (`pop.front().Fitness.size()`), builds the degree matrix
and peels fronts. -/
def DominanceDegreeSort (pop : List Fitness) : List (List Nat) :=
  let n := pop.length
  let m := (pop.headD []).length
  peel (ComputeDegreeMatrix pop m) m n (List.range n)

/-- Pareto "no worse on every objective" (minimization). -/
def ParetoLE (pop : List Fitness) (m i j : Nat) : Prop :=
  ∀ k < m, fit pop i k ≤ fit pop j k

/-- Pareto dominance (spec glossary): `i` dominates `j` when `i` is no worse
than `j` on every objective and strictly better on at least one. -/
def Dominates (pop : List Fitness) (m i j : Nat) : Prop :=
  ParetoLE pop m i j ∧ ¬ ParetoLE pop m j i

/-- The spec's (claimed) reading of a degree-matrix cell: the number of
objectives on which `i` is *not better* than `j`. -/
def specDegreeCount (pop : List Fitness) (m i j : Nat) : Nat :=
  ((List.range m).filter (fun k => decide (¬ fit pop i k < fit pop j k))).length

/-- The comparison a cell of a single-objective comparison matrix encodes:
1 when `val p ≤ val q`, else 0. -/
def cmpInd (val : Nat → ℚ) (p q : Nat) : Nat := if val p ≤ val q then 1 else 0

lemma objOrder_perm (pop : List Fitness) (k : Nat) :
    (objOrder pop k).Perm (List.range pop.length) :=
  List.perm_insertionSort _ _

lemma objOrder_sorted (pop : List Fitness) (k : Nat) :
    (objOrder pop k).Pairwise (fun a b => fit pop a k ≤ fit pop b k) := by
  haveI : IsTotal Nat (fun a b => fit pop a k ≤ fit pop b k) := ⟨fun a b => le_total _ _⟩
  haveI : IsTrans Nat (fun a b => fit pop a k ≤ fit pop b k) :=
    ⟨fun _ _ _ hab hbc => le_trans hab hbc⟩
  exact List.sorted_insertionSort _ _

/-- Invariant of the `compLoop` walk: once the prefix `done ++ [prev]` of the
sorted order has been processed, every processed row holds the comparison
indicator on all relevant columns, and every unprocessed row is still zero. -/
lemma compLoop_spec (val : Nat → ℚ) :
    ∀ (rest done : List Nat) (prev : Nat) (c : Mat),
      (done ++ prev :: rest).Pairwise (fun a b => val a ≤ val b) →
      (done ++ prev :: rest).Nodup →
      (∀ p ∈ done ++ [prev], ∀ q ∈ done ++ prev :: rest, c p q = cmpInd val p q) →
      (∀ p, p ∉ done ++ [prev] → ∀ q, c p q = 0) →
      (∀ p ∈ done ++ prev :: rest, ∀ q ∈ done ++ prev :: rest,
          compLoop val prev rest c p q = cmpInd val p q) ∧
      (∀ p, p ∉ done ++ prev :: rest → ∀ q, compLoop val prev rest c p q = 0) := by
  intro rest
  induction rest with
  | nil =>
    intro done prev c _ _ h3 h4
    exact ⟨fun p hp q hq => h3 p hp q hq, fun p hp q => h4 p hp q⟩
  | cons x xs ih =>
    intro done prev c hsort hnd h3 h4
    have hassoc : done ++ prev :: x :: xs = (done ++ [prev]) ++ x :: xs := by simp
    have hsort' : ((done ++ [prev]) ++ x :: xs).Pairwise (fun a b => val a ≤ val b) :=
      hassoc ▸ hsort
    have hnd' : ((done ++ [prev]) ++ x :: xs).Nodup := hassoc ▸ hnd
    have hpw := List.pairwise_append.mp hsort'
    have hdisj : (done ++ [prev]).Disjoint (x :: xs) := (List.nodup_append.mp hnd').2.2
    have hxnot : x ∉ done ++ [prev] := fun hx => hdisj hx (List.mem_cons_self _ _)
    have hprevx : val prev ≤ val x := hpw.2.2 prev (by simp) x (by simp)
    have hdone_le : ∀ q ∈ done ++ [prev], val q ≤ val prev := by
      intro q hq
      rcases List.mem_append.mp hq with hq | hq
      · exact (List.pairwise_append.mp hsort).2.2 q hq prev (by simp)
      · simp at hq; subst hq; exact le_refl _
    show (∀ p ∈ done ++ prev :: x :: xs, ∀ q ∈ done ++ prev :: x :: xs,
            compLoop val prev (x :: xs) c p q = cmpInd val p q) ∧
         (∀ p, p ∉ done ++ prev :: x :: xs → ∀ q, compLoop val prev (x :: xs) c p q = 0)
    rw [hassoc]
    by_cases hvx : val x = val prev
    · -- equal-value run: row x copies row prev
      have hstep : compLoop val prev (x :: xs) c = compLoop val x xs (copyRow c x prev) := by
        simp [compLoop, hvx]
      rw [hstep]
      have h3' : ∀ p ∈ (done ++ [prev]) ++ [x], ∀ q ∈ (done ++ [prev]) ++ x :: xs,
          copyRow c x prev p q = cmpInd val p q := by
        intro p hp q hq
        have hq' : q ∈ done ++ prev :: x :: xs := by rw [hassoc]; exact hq
        rcases List.mem_append.mp hp with hp | hp
        · have hpx : p ≠ x := fun h => hxnot (h ▸ hp)
          simp only [copyRow, if_neg hpx]
          exact h3 p hp q hq'
        · have hEq : x = p := Eq.symm (by simpa using hp)
          subst hEq
          simp only [copyRow, if_pos rfl]
          have := h3 prev (by simp) q hq'
          rw [this]
          simp [cmpInd, hvx]
      have h4' : ∀ p, p ∉ (done ++ [prev]) ++ [x] → ∀ q, copyRow c x prev p q = 0 := by
        intro p hp q
        have hpx : p ≠ x := fun h => hp (by simp [h])
        have hpd : p ∉ done ++ [prev] := fun h => hp (by simp at h ⊢; tauto)
        simp only [copyRow, if_neg hpx]
        exact h4 p hpd q
      have := ih (done ++ [prev]) x (copyRow c x prev)
        (by simpa using hsort') (by simpa using hnd') h3' h4'
      exact this
    · -- strictly larger value: row x gets 1 on the suffix columns
      have hstep : compLoop val prev (x :: xs) c
          = compLoop val x xs (setRowOnes c x (x :: xs)) := by
        simp [compLoop, hvx]
      rw [hstep]
      have hlt : val prev < val x := lt_of_le_of_ne hprevx (fun h => hvx h.symm)
      have h3' : ∀ p ∈ (done ++ [prev]) ++ [x], ∀ q ∈ (done ++ [prev]) ++ x :: xs,
          setRowOnes c x (x :: xs) p q = cmpInd val p q := by
        intro p hp q hq
        rcases List.mem_append.mp hp with hp | hp
        · have hpx : p ≠ x := fun h => hxnot (h ▸ hp)
          simp only [setRowOnes]
          rw [if_neg (by tauto)]
          exact h3 p hp q (by rw [hassoc]; exact hq)
        · have hEq : x = p := Eq.symm (by simpa using hp)
          subst hEq
          rcases List.mem_append.mp hq with hq | hq
          · -- q already processed: entry stays 0 and indeed val x > val q
            have hqx : q ∉ x :: xs := fun h => hdisj hq h
            simp only [setRowOnes]
            rw [if_neg (by tauto)]
            rw [h4 x hxnot q]
            have : ¬ val x ≤ val q :=
              not_le.mpr (lt_of_le_of_lt (hdone_le q hq) hlt)
            simp [cmpInd, this]
          · -- q in the suffix: entry is set to 1 and val x ≤ val q
            have hset : setRowOnes c x (x :: xs) x q = 1 := by
              simp [setRowOnes, hq]
            rw [hset]
            have hxq : val x ≤ val q := by
              rcases List.mem_cons.mp hq with rfl | hq'
              · exact le_refl _
              · exact (List.pairwise_cons.mp hpw.2.1).1 q hq'
            simp [cmpInd, hxq]
      have h4' : ∀ p, p ∉ (done ++ [prev]) ++ [x] → ∀ q, setRowOnes c x (x :: xs) p q = 0 := by
        intro p hp q
        have hpx : p ≠ x := fun h => hp (by simp [h])
        have hpd : p ∉ done ++ [prev] := fun h => hp (by simp at h ⊢; tauto)
        simp only [setRowOnes]
        rw [if_neg (by tauto)]
        exact h4 p hpd q
      exact ih (done ++ [prev]) x (setRowOnes c x (x :: xs))
        (by simpa using hsort') (by simpa using hnd') h3' h4'

/-- A cell of a per-objective comparison matrix is 1 exactly when the row
individual is no worse than the column individual on that objective. -/
lemma comparison_matrix_eq (pop : List Fitness) (k : Nat) :
    ∀ p ∈ List.range pop.length, ∀ q ∈ List.range pop.length,
      ComputeComparisonMatrix pop k p q = cmpInd (fun i => fit pop i k) p q := by
  intro p hp q hq
  unfold ComputeComparisonMatrix
  rcases hO : objOrder pop k with _ | ⟨b0, rest⟩
  · exfalso
    have hperm := objOrder_perm pop k
    rw [hO] at hperm
    rw [hperm.symm.eq_nil] at hp
    simp at hp
  · have hperm := objOrder_perm pop k
    rw [hO] at hperm
    have hmem : ∀ i, i ∈ b0 :: rest ↔ i ∈ List.range pop.length := fun i => hperm.mem_iff
    have hsort : (([] : List Nat) ++ b0 :: rest).Pairwise
        (fun a b => fit pop a k ≤ fit pop b k) := by
      have := objOrder_sorted pop k
      rw [hO] at this
      simpa using this
    have hnd : (([] : List Nat) ++ b0 :: rest).Nodup := by
      have : (b0 :: rest).Nodup := hperm.nodup_iff.mpr (List.nodup_range _)
      simpa using this
    have h3 : ∀ p ∈ ([] : List Nat) ++ [b0], ∀ q ∈ ([] : List Nat) ++ b0 :: rest,
        fillRow zeroMat b0 p q = cmpInd (fun i => fit pop i k) p q := by
      intro p hp q hq
      have hEq : b0 = p := Eq.symm (by simpa using hp)
      subst hEq
      have hs : List.Pairwise (fun a b => fit pop a k ≤ fit pop b k) (b0 :: rest) := by
        simpa using hsort
      have hle : fit pop b0 k ≤ fit pop q k := by
        rcases List.mem_cons.mp (by simpa using hq) with rfl | hq'
        · exact le_refl _
        · exact (List.pairwise_cons.mp hs).1 q hq'
      simp [fillRow, cmpInd, hle]
    have h4 : ∀ p, p ∉ ([] : List Nat) ++ [b0] → ∀ q, fillRow zeroMat b0 p q = 0 := by
      intro p hp q
      have : p ≠ b0 := by simpa using hp
      simp [fillRow, zeroMat, this]
    exact (compLoop_spec (fun i => fit pop i k) rest [] b0 (fillRow zeroMat b0)
        hsort hnd h3 h4).1 p (by simpa using (hmem p).mpr hp) q (by simpa using (hmem q).mpr hq)

lemma foldl_add_eq (g : Nat → Nat) :
    ∀ (l : List Nat) (a : Nat), l.foldl (fun acc k => acc + g k) a = a + (l.map g).sum := by
  intro l
  induction l with
  | nil => simp
  | cons x xs ih => intro a; simp [List.foldl_cons, ih, Nat.add_assoc]

lemma sum_indicator (P : Nat → Prop) [DecidablePred P] :
    ∀ l : List Nat,
      (l.map (fun k => if P k then 1 else 0)).sum = (l.filter (fun k => decide (P k))).length := by
  intro l
  induction l with
  | nil => simp
  | cons x xs ih =>
    by_cases hx : P x
    · simp [hx, ih, Nat.add_comm]
    · simp [hx, ih]

/-- A cell of the summed comparison matrix counts the objectives on which the
row individual is no worse than the column individual. -/
lemma comparisonSum_eq (pop : List Fitness) (m : Nat) (p q : Nat)
    (hp : p ∈ List.range pop.length) (hq : q ∈ List.range pop.length) :
    ComparisonMatrixSum pop m p q
      = ((List.range m).filter (fun k => decide (fit pop p k ≤ fit pop q k))).length := by
  unfold ComparisonMatrixSum
  rw [foldl_add_eq]
  rw [List.map_congr_left (fun k _ => comparison_matrix_eq pop k p hp q hq)]
  simpa [cmpInd] using sum_indicator (fun k => fit pop p k ≤ fit pop q k) (List.range m)

lemma comparisonSum_le (pop : List Fitness) (m : Nat) (p q : Nat)
    (hp : p ∈ List.range pop.length) (hq : q ∈ List.range pop.length) :
    ComparisonMatrixSum pop m p q ≤ m := by
  rw [comparisonSum_eq pop m p q hp hq]
  simpa using List.length_filter_le _ (List.range m)

lemma comparisonSum_eq_m_iff (pop : List Fitness) (m : Nat) (p q : Nat)
    (hp : p ∈ List.range pop.length) (hq : q ∈ List.range pop.length) :
    ComparisonMatrixSum pop m p q = m ↔ ParetoLE pop m p q := by
  rw [comparisonSum_eq pop m p q hp hq, ← List.countP_eq_length_filter]
  constructor
  · intro h
    intro k hk
    have := List.countP_eq_length.mp (by simpa using h) k (List.mem_range.mpr hk)
    simpa using this
  · intro h
    have : ∀ a ∈ List.range m, (fun k => decide (fit pop p k ≤ fit pop q k)) a = true := by
      intro a ha
      simpa using h a (List.mem_range.mp ha)
    simpa using List.countP_eq_length.mpr this

lemma degree_le (pop : List Fitness) (m : Nat) (p q : Nat)
    (hp : p ∈ List.range pop.length) (hq : q ∈ List.range pop.length) :
    ComputeDegreeMatrix pop m p q ≤ m := by
  unfold ComputeDegreeMatrix
  split
  · exact Nat.zero_le _
  · exact comparisonSum_le pop m p q hp hq

/-- After zeroing, a degree cell equals `m` exactly when the row individual
Pareto-dominates the column individual. -/
lemma degree_eq_m_iff (pop : List Fitness) (m : Nat) (hm : 1 ≤ m) (p q : Nat)
    (hp : p ∈ List.range pop.length) (hq : q ∈ List.range pop.length) :
    ComputeDegreeMatrix pop m p q = m ↔ Dominates pop m p q := by
  unfold ComputeDegreeMatrix Dominates
  split
  · rename_i h
    constructor
    · intro h0; omega
    · intro hdom
      exact absurd ((comparisonSum_eq_m_iff pop m q p hq hp).mp h.2) hdom.2
  · rename_i h
    rw [comparisonSum_eq_m_iff pop m p q hp hq]
    constructor
    · intro hle
      refine ⟨hle, fun hba => ?_⟩
      exact h ⟨(comparisonSum_eq_m_iff pop m p q hp hq).mpr hle,
        (comparisonSum_eq_m_iff pop m q p hq hp).mpr hba⟩
    · exact fun hdom => hdom.1

lemma dominates_trans (pop : List Fitness) (m : Nat) :
    ∀ a b c, Dominates pop m a b → Dominates pop m b c → Dominates pop m a c := by
  intro a b c hab hbc
  refine ⟨fun k hk => le_trans (hab.1 k hk) (hbc.1 k hk), fun hca => ?_⟩
  exact hbc.2 (fun k hk => le_trans (hca k hk) (hab.1 k hk))

lemma dominates_irrefl (pop : List Fitness) (m : Nat) :
    ∀ a, ¬ Dominates pop m a a := fun a ha => ha.2 ha.1

/-- A finite nonempty set ordered by a transitive irreflexive relation has a
minimal element: the justification for every peeled front being nonempty. -/
lemma exists_minimal {Dom : Nat → Nat → Prop}
    (htrans : ∀ a b c, Dom a b → Dom b c → Dom a c)
    (hirr : ∀ a, ¬ Dom a a) :
    ∀ tmp : List Nat, tmp ≠ [] → ∃ z ∈ tmp, ∀ j ∈ tmp, ¬ Dom j z := by
  intro tmp
  induction tmp with
  | nil => simp
  | cons a rest ih =>
    intro _
    by_cases hr : rest = []
    · subst hr
      refine ⟨a, by simp, ?_⟩
      intro j hj
      have : j = a := by simpa using hj
      subst this
      exact hirr j
    · obtain ⟨z, hz, hmin⟩ := ih hr
      by_cases haz : Dom a z
      · refine ⟨a, by simp, ?_⟩
        intro j hj hd
        rcases List.mem_cons.mp hj with rfl | hj'
        · exact hirr j hd
        · exact hmin j hj' (htrans j a z hd haz)
      · refine ⟨z, List.mem_cons_of_mem _ hz, ?_⟩
        intro j hj hd
        rcases List.mem_cons.mp hj with rfl | hj'
        · exact haz hd
        · exact hmin j hj' hd

/-- Correctness of the front-peeling loop: provided the degree matrix decides
a transitive irreflexive dominance relation, the peeled fronts partition the
remaining indices, no front is empty, and every dominator of an index of
front `k` was assigned to an earlier front. -/
lemma peel_correct (d : Mat) (m : Nat) (Dom : Nat → Nat → Prop) (n : Nat)
    (hd : ∀ i ∈ List.range n, ∀ j ∈ List.range n, (d j i = m ↔ Dom j i))
    (hdle : ∀ i ∈ List.range n, ∀ j ∈ List.range n, d j i ≤ m)
    (htrans : ∀ a b c, Dom a b → Dom b c → Dom a c)
    (hirr : ∀ a, ¬ Dom a a) :
    ∀ fuel tmp, tmp.Nodup → (∀ i ∈ tmp, i ∈ List.range n) → tmp.length ≤ fuel →
      (peel d m fuel tmp).join.Perm tmp ∧
      (∀ fr ∈ peel d m fuel tmp, fr ≠ []) ∧
      (∀ k i, i ∈ (peel d m fuel tmp).getD k [] → ∀ j ∈ tmp, Dom j i →
        ∃ l < k, j ∈ (peel d m fuel tmp).getD l []) := by
  intro fuel
  induction fuel with
  | zero =>
    intro tmp hnd hsub hlen
    have htmp : tmp = [] := List.eq_nil_of_length_eq_zero (Nat.le_zero.mp hlen)
    subst htmp
    refine ⟨by simp [peel], by simp [peel], ?_⟩
    intro k i hi
    simp [peel] at hi
  | succ fuel ih =>
    intro tmp hnd hsub hlen
    by_cases htmp : tmp = []
    · subst htmp
      refine ⟨by simp [peel], by simp [peel], ?_⟩
      intro k i hi
      simp [peel] at hi
    · have hstep : peel d m (fuel + 1) tmp
          = tmp.filter (frontTest d m tmp) ::
              peel d m fuel (tmp.filter (fun i => !frontTest d m tmp i)) := by
        simp [peel, List.isEmpty_iff, htmp]
      set front := tmp.filter (frontTest d m tmp) with hfront_def
      set rest := tmp.filter (fun i => !frontTest d m tmp i) with hrest_def
      have hperm : (front ++ rest).Perm tmp := List.filter_append_perm _ _
      -- every remaining index is either in the front or among the rest
      have hsplit : ∀ j ∈ tmp, j ∈ front ∨ j ∈ rest := by
        intro j hj
        by_cases hft : frontTest d m tmp j
        · exact Or.inl (List.mem_filter.mpr ⟨hj, hft⟩)
        · exact Or.inr (List.mem_filter.mpr ⟨hj, by simpa using hft⟩)
      -- the front is nonempty: a minimal element passes the test
      obtain ⟨z, hz, hzmin⟩ := exists_minimal htrans hirr tmp htmp
      have hz_front : z ∈ front := by
        refine List.mem_filter.mpr ⟨hz, ?_⟩
        unfold frontTest
        rw [List.all_eq_true]
        intro j hj
        have hle := hdle z (hsub z hz) j (hsub j hj)
        have hne : d j z ≠ m := fun hEq =>
          hzmin j hj ((hd z (hsub z hz) j (hsub j hj)).mp hEq)
        simp only [decide_eq_true_eq]
        omega
      have hfront_ne : front ≠ [] := fun h => by rw [h] at hz_front; simp at hz_front
      have hrest_nd : rest.Nodup := hnd.filter _
      have hrest_sub : ∀ i ∈ rest, i ∈ List.range n :=
        fun i hi => hsub i (List.mem_filter.mp hi).1
      have hlen_sum : front.length + rest.length = tmp.length := by
        have := hperm.length_eq
        simpa [List.length_append] using this
      have hrest_len : rest.length ≤ fuel := by
        have : 1 ≤ front.length := by
          cases hfc : front with
          | nil => exact absurd hfc hfront_ne
          | cons a l => simp [hfc]
        omega
      obtain ⟨ihp, ihne, ihord⟩ := ih rest hrest_nd hrest_sub hrest_len
      rw [hstep]
      refine ⟨?_, ?_, ?_⟩
      · have h1 : (front :: peel d m fuel rest).join = front ++ (peel d m fuel rest).join := by
          simp
        rw [h1]
        exact (ihp.append_left front).trans hperm
      · intro fr hfr
        rcases List.mem_cons.mp hfr with rfl | hfr'
        · exact hfront_ne
        · exact ihne fr hfr'
      · intro k i hi j hj hdom
        cases k with
        | zero =>
          exfalso
          simp only [List.getD_cons_zero] at hi
          have htest := (List.mem_filter.mp hi).2
          unfold frontTest at htest
          rw [List.all_eq_true] at htest
          have := htest j hj
          simp only [decide_eq_true_eq] at this
          have hi_tmp : i ∈ tmp := (List.mem_filter.mp hi).1
          have : d j i = m := (hd i (hsub i hi_tmp) j (hsub j hj)).mpr hdom
          omega
        | succ k =>
          simp only [List.getD_cons_succ] at hi
          rcases hsplit j hj with hjf | hjr
          · exact ⟨0, Nat.succ_pos _, by simpa using hjf⟩
          · obtain ⟨l, hl, hjl⟩ := ihord k i hi j hjr hdom
            exact ⟨l + 1, Nat.succ_lt_succ hl, by simpa using hjl⟩

lemma mem_getD_mem_join :
    ∀ (L : List (List Nat)) (k : Nat) (x : Nat), x ∈ L.getD k [] → x ∈ L.join := by
  intro L
  induction L with
  | nil => intro k x hx; simp at hx
  | cons a l ihl =>
    intro k x hx
    cases k with
    | zero => simp only [List.getD_cons_zero] at hx; simp [hx]
    | succ k =>
      simp only [List.getD_cons_succ] at hx
      simp [ihl k x hx]

lemma headD_length (pop : List Fitness) (m : Nat) (hne : pop ≠ [])
    (hlen : ∀ v ∈ pop, v.length = m) : (pop.headD []).length = m := by
  cases pop with
  | nil => exact absurd rfl hne
  | cons v vs => exact hlen v (List.mem_cons_self _ _)

/-- C2: for every non-empty population of `m`-objective fitness vectors
(minimization per objective, `m ≥ 1`), `DominanceDegreeSorter::Sort`
partitions all indices into an ordered list of fronts: front 0 holds
mutually non-dominated individuals, an individual of front `k` is dominated
only by members of earlier fronts, and every index is assigned; in
particular `{(1,4),(2,3),(3,2),(4,1)}` yields the single front
`{0,1,2,3}` and `{(1,1),(2,2),(3,3)}` yields `[{0}],[{1}],[{2}]`. -/
theorem dds_sort_partitions_into_fronts (pop : List Fitness) (m : Nat)
    (hne : pop ≠ []) (hm : 1 ≤ m) (hlen : ∀ v ∈ pop, v.length = m) :
    ((∀ i ∈ (DominanceDegreeSort pop).getD 0 [],
        ∀ j ∈ (DominanceDegreeSort pop).getD 0 [], ¬ Dominates pop m j i)
     ∧ (∀ k i, i ∈ (DominanceDegreeSort pop).getD k [] →
          ∀ j ∈ List.range pop.length, Dominates pop m j i →
            ∃ l < k, j ∈ (DominanceDegreeSort pop).getD l [])
     ∧ (DominanceDegreeSort pop).join.Perm (List.range pop.length))
    ∧ DominanceDegreeSort [[1,4],[2,3],[3,2],[4,1]] = [[0,1,2,3]]
    ∧ DominanceDegreeSort [[1,1],[2,2],[3,3]] = [[0],[1],[2]] := by
  have hsort_eq : DominanceDegreeSort pop
      = peel (ComputeDegreeMatrix pop m) m pop.length (List.range pop.length) := by
    unfold DominanceDegreeSort
    rw [headD_length pop m hne hlen]
  have hmain := peel_correct (ComputeDegreeMatrix pop m) m (Dominates pop m) pop.length
    (fun i hi j hj => degree_eq_m_iff pop m hm j i hj hi)
    (fun i hi j hj => degree_le pop m j i hj hi)
    (dominates_trans pop m) (dominates_irrefl pop m)
    pop.length (List.range pop.length) (List.nodup_range _) (fun i hi => hi) (by simp)
  obtain ⟨hperm, _, hord⟩ := hmain
  refine ⟨⟨?_, ?_, ?_⟩, by decide, by decide⟩
  · intro i hi j hj hdom
    rw [hsort_eq] at hi hj
    have hjr : j ∈ List.range pop.length :=
      hperm.mem_iff.mp (mem_getD_mem_join _ 0 j hj)
    obtain ⟨l, hl, _⟩ := hord 0 i hi j hjr hdom
    omega
  · intro k i hi j hj hdom
    rw [hsort_eq] at hi ⊢
    exact hord k i hi j hj hdom
  · rw [hsort_eq]; exact hperm

/-- Witness for `dds_sort_partitions_into_fronts` at the concrete
population `{(1,2),(2,1)}` with two objectives. -/
theorem dds_sort_partitions_witness :
    ((∀ i ∈ (DominanceDegreeSort [[1,2],[2,1]]).getD 0 [],
        ∀ j ∈ (DominanceDegreeSort [[1,2],[2,1]]).getD 0 [],
          ¬ Dominates [[1,2],[2,1]] 2 j i)
     ∧ (∀ k i, i ∈ (DominanceDegreeSort [[1,2],[2,1]]).getD k [] →
          ∀ j ∈ List.range (List.length [[1,2],[2,1]]),
            Dominates [[1,2],[2,1]] 2 j i →
              ∃ l < k, j ∈ (DominanceDegreeSort [[1,2],[2,1]]).getD l [])
     ∧ (DominanceDegreeSort [[1,2],[2,1]]).join.Perm
         (List.range (List.length [[1,2],[2,1]])))
    ∧ DominanceDegreeSort [[1,4],[2,3],[3,2],[4,1]] = [[0,1,2,3]]
    ∧ DominanceDegreeSort [[1,1],[2,2],[3,3]] = [[0],[1],[2]] :=
  dds_sort_partitions_into_fronts [[1,2],[2,1]] 2 (by decide) (by decide)
    (by intro v hv; simp at hv; rcases hv with rfl | rfl <;> rfl)

/-- C10: under the non-emptiness/equal-arity precondition the front-peeling
loop terminates with every front nonempty and every index assigned to
exactly one front (each index occurs exactly once across all fronts). -/
theorem dds_sort_terminates (pop : List Fitness) (m : Nat)
    (hne : pop ≠ []) (hm : 1 ≤ m) (hlen : ∀ v ∈ pop, v.length = m) :
    (∀ fr ∈ DominanceDegreeSort pop, fr ≠ []) ∧
    (DominanceDegreeSort pop).join.Perm (List.range pop.length) ∧
    (∀ i < pop.length,
      ((DominanceDegreeSort pop).map (fun fr => fr.count i)).sum = 1) := by
  have hsort_eq : DominanceDegreeSort pop
      = peel (ComputeDegreeMatrix pop m) m pop.length (List.range pop.length) := by
    unfold DominanceDegreeSort
    rw [headD_length pop m hne hlen]
  have hmain := peel_correct (ComputeDegreeMatrix pop m) m (Dominates pop m) pop.length
    (fun i hi j hj => degree_eq_m_iff pop m hm j i hj hi)
    (fun i hi j hj => degree_le pop m j i hj hi)
    (dominates_trans pop m) (dominates_irrefl pop m)
    pop.length (List.range pop.length) (List.nodup_range _) (fun i hi => hi) (by simp)
  obtain ⟨hperm, hfne, _⟩ := hmain
  refine ⟨?_, ?_, ?_⟩
  · intro fr hfr; rw [hsort_eq] at hfr; exact hfne fr hfr
  · rw [hsort_eq]; exact hperm
  · intro i hi
    rw [hsort_eq]
    rw [← List.count_join]
    rw [hperm.count_eq]
    exact List.count_eq_one_of_mem (List.nodup_range _) (List.mem_range.mpr hi)

/-- Witness for `dds_sort_terminates` at the population `{(1),(1)}`
(one objective, identical individuals: a single two-element front). -/
theorem dds_sort_terminates_witness :
    (∀ fr ∈ DominanceDegreeSort [[1],[1]], fr ≠ []) ∧
    (DominanceDegreeSort [[1],[1]]).join.Perm (List.range (List.length [[1],[1]])) ∧
    (∀ i < List.length [[1],[1]],
      ((DominanceDegreeSort [[1],[1]]).map (fun fr => fr.count i)).sum = 1) :=
  dds_sort_terminates [[1],[1]] 1 (by decide) (by decide)
    (by intro v hv; simp at hv; rcases hv with rfl | rfl <;> rfl)

/-- C3 counterexample: the claim reads a degree cell `Dm[i][j]` as the number
of objectives on which `i` is *not better* than `j`.  For the population
`{(1,1),(2,2)}` the code's cell `Dm[0][1]` is 2 (individual 0 is not *worse*
than 1 on both objectives) while the number of objectives on which 0 is not
better than 1 is 0. -/
theorem degree_matrix_not_spec_count :
    ComputeDegreeMatrix [[1,1],[2,2]] 2 0 1 = 2 ∧
    specDegreeCount [[1,1],[2,2]] 2 0 1 = 0 := by decide

/-- C3 (amended): a comparison-matrix cell `C[i][j]` is 1 iff `j` is no
better than `i` on that objective (equivalently `fit i ≤ fit j`); the summed
cell `Dm[i][j]` counts the objectives on which `i` is *not worse* than `j`;
and a symmetric pair of `m`-valued cells (identical fitness on all
objectives) is zeroed in both directions, while all other cells keep the
summed count. -/
theorem degree_matrix_counts_not_worse (pop : List Fitness) (m : Nat) (p q kk : Nat)
    (hp : p ∈ List.range pop.length) (hq : q ∈ List.range pop.length) :
    (ComputeComparisonMatrix pop kk p q = if fit pop p kk ≤ fit pop q kk then 1 else 0)
    ∧ (ComparisonMatrixSum pop m p q
        = ((List.range m).filter (fun k => decide (fit pop p k ≤ fit pop q k))).length)
    ∧ ((∀ k < m, fit pop p k = fit pop q k) →
        ComputeDegreeMatrix pop m p q = 0 ∧ ComputeDegreeMatrix pop m q p = 0)
    ∧ (¬ (∀ k < m, fit pop p k = fit pop q k) →
        ComputeDegreeMatrix pop m p q = ComparisonMatrixSum pop m p q) := by
  refine ⟨comparison_matrix_eq pop kk p hp q hq, comparisonSum_eq pop m p q hp hq, ?_, ?_⟩
  · intro hEq
    have h1 : ComparisonMatrixSum pop m p q = m :=
      (comparisonSum_eq_m_iff pop m p q hp hq).mpr (fun k hk => le_of_eq (hEq k hk))
    have h2 : ComparisonMatrixSum pop m q p = m :=
      (comparisonSum_eq_m_iff pop m q p hq hp).mpr (fun k hk => ge_of_eq (hEq k hk))
    constructor
    · unfold ComputeDegreeMatrix
      rw [if_pos ⟨h1, h2⟩]
    · unfold ComputeDegreeMatrix
      rw [if_pos ⟨h2, h1⟩]
  · intro hne
    unfold ComputeDegreeMatrix
    rw [if_neg]
    intro ⟨h1, h2⟩
    exact hne (fun k hk => le_antisymm
      ((comparisonSum_eq_m_iff pop m p q hp hq).mp h1 k hk)
      ((comparisonSum_eq_m_iff pop m q p hq hp).mp h2 k hk))

/-- Witness for `degree_matrix_counts_not_worse` at `{(1,1),(1,2)}`. -/
theorem degree_matrix_counts_witness :
    (ComputeComparisonMatrix [[1,1],[1,2]] 1 0 1
        = if fit [[1,1],[1,2]] 0 1 ≤ fit [[1,1],[1,2]] 1 1 then 1 else 0)
    ∧ (ComparisonMatrixSum [[1,1],[1,2]] 2 0 1
        = ((List.range 2).filter
            (fun k => decide (fit [[1,1],[1,2]] 0 k ≤ fit [[1,1],[1,2]] 1 k))).length)
    ∧ ((∀ k < 2, fit [[1,1],[1,2]] 0 k = fit [[1,1],[1,2]] 1 k) →
        ComputeDegreeMatrix [[1,1],[1,2]] 2 0 1 = 0 ∧
        ComputeDegreeMatrix [[1,1],[1,2]] 2 1 0 = 0)
    ∧ (¬ (∀ k < 2, fit [[1,1],[1,2]] 0 k = fit [[1,1],[1,2]] 1 k) →
        ComputeDegreeMatrix [[1,1],[1,2]] 2 0 1 = ComparisonMatrixSum [[1,1],[1,2]] 2 0 1) :=
  degree_matrix_counts_not_worse [[1,1],[1,2]] 2 0 1 1 (by decide) (by decide)

/-! ## Reverse-mode derivative rules for `Mul` and `Div`

Embeds `Derivative<NodeType::Mul>` and `Derivative<NodeType::Div>` from
`autodiff/reverse/derivatives.hpp`.  A node is modelled by the two fields
the derivative code reads: `Arity` and `Length` (the number of *descendant*
nodes — the code steps from a child root `j` to the previous sibling with
`j - (nodes[j].Length + 1)`).  Per-row value columns (`values.col(j)`) are
modelled by a single rational per node, since every array operation involved
is elementwise over the row dimension; `rnodes[j].P` is modelled by `P j`
and the slot array `rnodes[i].D` by a function updated at the written
positions. -/

structure SrcNode where
  arity : Nat
  length : Nat
deriving Repr, DecidableEq

instance : Inhabited SrcNode := ⟨⟨0, 0⟩⟩

/-- `j - (nodes[j].Length + 1)`: from a child's root index to the root
index of the sibling stored before it. -/
def childStep (nodes : List SrcNode) (j : Nat) : Nat :=
  j - ((nodes.getD j default).length + 1)

/-- Modelled from the spec: `Subtree<Node const>::EnumerateIndices` and
`Subtree::Indices` (`core/subtree.hpp` is not among the sources).  Spec §3:
"the subtree rooted at node index i occupies the contiguous index range
[i-length+1, i]; this lets any consumer locate a child without pointers by
subtracting the previous sibling's length" — the children of node `i` are
therefore enumerated from `i - 1` downward via `childStep`. -/
def childIndicesAux (nodes : List SrcNode) : Nat → Nat → List Nat
  | 0, _ => []
  | a + 1, j => j :: childIndicesAux nodes a (childStep nodes j)

def childIndices (nodes : List SrcNode) (i : Nat) : List Nat :=
  childIndicesAux nodes (nodes.getD i default).arity (i - 1)

/-- In this flattened layout (see `GrowTreeCreator`: trees are built in
preorder and then reversed) the node at `i - 1` is the first — left —
child of node `i`. -/
def leftChildIdx (i : Nat) : Nat := i - 1

/-- The second — right — child of a binary node `i`, reached by stepping
over the left child's subtree. -/
def rightChildIdx (nodes : List SrcNode) (i : Nat) : Nat := childStep nodes (i - 1)

/-- `Derivative<NodeType::Mul>::operator()`: the local-derivative slots
`D[x]` written for node `i`, from the adjoints `P` and the cached forward
`values` only. -/
def derivMul (nodes : List SrcNode) (values P : Nat → ℚ) (i : Nat) (dInit : Nat → ℚ) :
    Nat → ℚ :=
  if (nodes.getD i default).arity = 2 then
    let j := i - 1
    let k := j - ((nodes.getD j default).length + 1)
    fun x => if x = 0 then P j * values k else if x = 1 then P k * values j else dInit x
  else
    fun x =>
      match (childIndices nodes i)[x]? with
      | some j =>
        (childIndices nodes i).foldl (fun d k => if j = k then d else d * values k) (P j)
      | none => dInit x

/-- `Derivative<NodeType::Div>::operator()`: throws for arity above 2,
otherwise writes the unary rule or the closed-form quotient rule.  The
`throw std::runtime_error` is modelled as `Except.error` carrying the same
message; the unreachable trailing `else` (arity 0) leaves the slots
untouched, as the C++ does. -/
def derivDiv (nodes : List SrcNode) (values P : Nat → ℚ) (i : Nat) (dInit : Nat → ℚ) :
    Except String (Nat → ℚ) :=
  if (nodes.getD i default).arity > 2 then
    Except.error "derivative of division with more than 2 children is not supported"
  else if (nodes.getD i default).arity = 1 then
    let j := i - 1
    Except.ok (fun x => if x = 0 then -(P j) / (values j) ^ 2 else dInit x)
  else if (nodes.getD i default).arity = 2 then
    let j := i - 1
    let k := j - ((nodes.getD j default).length + 1)
    Except.ok (fun x =>
      if x = 0 then P j / values k
      else if x = 1 then -(P k) * values j / (values k) ^ 2
      else dInit x)
  else
    Except.ok dInit

/-- C1: differentiation of a `Div` node of arity above 2 fails fast with a
descriptive error at the point of use; arity 1 yields `D[0] = -P / value²`
of the child, and arity 2 the closed-form quotient rule, neither raising
an error. -/
theorem div_derivative_arity_cases (nodes : List SrcNode) (values P : Nat → ℚ)
    (i : Nat) (dInit : Nat → ℚ) :
    ((nodes.getD i default).arity > 2 →
      derivDiv nodes values P i dInit
        = Except.error "derivative of division with more than 2 children is not supported")
    ∧ ((nodes.getD i default).arity = 1 →
      derivDiv nodes values P i dInit
        = Except.ok (fun x =>
            if x = 0 then -(P (leftChildIdx i)) / (values (leftChildIdx i)) ^ 2
            else dInit x))
    ∧ ((nodes.getD i default).arity = 2 →
      derivDiv nodes values P i dInit
        = Except.ok (fun x =>
            if x = 0 then P (leftChildIdx i) / values (rightChildIdx nodes i)
            else if x = 1 then
              -(P (rightChildIdx nodes i)) * values (leftChildIdx i)
                / (values (rightChildIdx nodes i)) ^ 2
            else dInit x)) := by
  refine ⟨fun h => ?_, fun h => ?_, fun h => ?_⟩
  · unfold derivDiv
    rw [if_pos h]
  · unfold derivDiv
    rw [if_neg (by omega), if_pos h]
    rfl
  · unfold derivDiv
    rw [if_neg (by omega), if_neg (by omega), if_pos h]
    rfl

/-- Witness for `div_derivative_arity_cases`: a ternary division node
errors out, a unary one gets `-P/value²`, a binary one the quotient rule. -/
theorem div_derivative_witness :
    (derivDiv [⟨0,0⟩, ⟨0,0⟩, ⟨0,0⟩, ⟨3,3⟩] (fun n => (n : ℚ) + 1) (fun n => (n : ℚ) + 2) 3
        (fun _ => 0)
      = Except.error "derivative of division with more than 2 children is not supported")
    ∧ (derivDiv [⟨0,0⟩, ⟨1,1⟩] (fun n => (n : ℚ) + 1) (fun n => (n : ℚ) + 2) 1 (fun _ => 0)
      = Except.ok (fun x =>
          if x = 0 then
            -((fun n => (n : ℚ) + 2) (leftChildIdx 1))
              / ((fun n => (n : ℚ) + 1) (leftChildIdx 1)) ^ 2
          else (fun _ => (0 : ℚ)) x))
    ∧ (derivDiv [⟨0,0⟩, ⟨0,0⟩, ⟨2,2⟩] (fun n => (n : ℚ) + 1) (fun n => (n : ℚ) + 2) 2
        (fun _ => 0)
      = Except.ok (fun x =>
          if x = 0 then
            (fun n => (n : ℚ) + 2) (leftChildIdx 2)
              / (fun n => (n : ℚ) + 1) (rightChildIdx [⟨0,0⟩, ⟨0,0⟩, ⟨2,2⟩] 2)
          else if x = 1 then
            -((fun n => (n : ℚ) + 2) (rightChildIdx [⟨0,0⟩, ⟨0,0⟩, ⟨2,2⟩] 2))
              * (fun n => (n : ℚ) + 1) (leftChildIdx 2)
              / ((fun n => (n : ℚ) + 1) (rightChildIdx [⟨0,0⟩, ⟨0,0⟩, ⟨2,2⟩] 2)) ^ 2
          else (fun _ => (0 : ℚ)) x)) :=
  ⟨(div_derivative_arity_cases [⟨0,0⟩, ⟨0,0⟩, ⟨0,0⟩, ⟨3,3⟩] _ _ 3 _).1 (by decide),
   (div_derivative_arity_cases [⟨0,0⟩, ⟨1,1⟩] _ _ 1 _).2.1 (by decide),
   (div_derivative_arity_cases [⟨0,0⟩, ⟨0,0⟩, ⟨2,2⟩] _ _ 2 _).2.2 (by decide)⟩

lemma foldl_skip_mul (values : Nat → ℚ) (j : Nat) :
    ∀ (cs : List Nat) (a : ℚ),
      cs.foldl (fun d k => if j = k then d else d * values k) a
        = a * ((cs.filter (fun k => decide (j ≠ k))).map values).prod := by
  intro cs
  induction cs with
  | nil => intro a; simp
  | cons x xs ih =>
    intro a
    by_cases hx : j = x
    · subst hx
      simp [ih]
    · rw [List.foldl_cons, if_neg hx, ih (a * values x)]
      rw [List.filter_cons]
      have hd : (decide (j ≠ x)) = true := by simpa using hx
      rw [if_pos hd]
      simp only [List.map_cons, List.prod_cons]
      ring

lemma filter_ne_eraseIdx :
    ∀ (cs : List Nat) (x : Nat) (hx : x < cs.length), cs.Nodup →
      cs.filter (fun k => decide (cs.get ⟨x, hx⟩ ≠ k)) = cs.eraseIdx x := by
  intro cs
  induction cs with
  | nil => intro x hx; simp at hx
  | cons c t ih =>
    intro x hx hnd
    cases x with
    | zero =>
      show (c :: t).filter (fun k => decide (c ≠ k)) = t
      rw [List.filter_cons]
      rw [if_neg (by simp)]
      apply List.filter_eq_self.mpr
      intro a ha
      have : c ≠ a := fun h => (List.nodup_cons.mp hnd).1 (h ▸ ha)
      simpa using this
    | succ x =>
      have hx' : x < t.length := by simpa using hx
      have hget : (c :: t).get ⟨x + 1, hx⟩ = t.get ⟨x, hx'⟩ := rfl
      have hmem : t.get ⟨x, hx'⟩ ∈ t := List.get_mem t x hx'
      have hne : t.get ⟨x, hx'⟩ ≠ c := fun h => (List.nodup_cons.mp hnd).1 (h ▸ hmem)
      show (c :: t).filter (fun k => decide ((c :: t).get ⟨x + 1, hx⟩ ≠ k)) = c :: t.eraseIdx x
      rw [hget, List.filter_cons]
      have hdec : (decide (t.get ⟨x, hx'⟩ ≠ c)) = true := by simpa using hne
      rw [if_pos hdec]
      rw [ih x hx' (List.nodup_cons.mp hnd).2]

/-- C4: the `Mul` derivative is computed from cached forward values only:
binary case `D[0] = P·value(rightChild)`, `D[1] = P·value(leftChild)`;
n-ary case: the slot of each child is `P` times the product of the forward
values of all the *other* children. -/
theorem mul_derivative_rules (nodes : List SrcNode) (values P : Nat → ℚ)
    (i : Nat) (dInit : Nat → ℚ) :
    ((nodes.getD i default).arity = 2 →
      derivMul nodes values P i dInit 0
          = P (leftChildIdx i) * values (rightChildIdx nodes i) ∧
      derivMul nodes values P i dInit 1
          = P (rightChildIdx nodes i) * values (leftChildIdx i))
    ∧ ((nodes.getD i default).arity ≠ 2 → (childIndices nodes i).Nodup →
      ∀ x (hx : x < (childIndices nodes i).length),
        derivMul nodes values P i dInit x
          = P ((childIndices nodes i).get ⟨x, hx⟩)
              * (((childIndices nodes i).eraseIdx x).map values).prod) := by
  constructor
  · intro h
    constructor
    · unfold derivMul
      rw [if_pos h]
      rfl
    · unfold derivMul
      rw [if_pos h]
      rfl
  · intro h hnd x hx
    unfold derivMul
    rw [if_neg h]
    have hsome : (childIndices nodes i)[x]? = some ((childIndices nodes i).get ⟨x, hx⟩) := by
      rw [List.getElem?_eq_getElem hx]
      simp [List.get_eq_getElem]
    simp only [hsome]
    rw [foldl_skip_mul]
    rw [filter_ne_eraseIdx (childIndices nodes i) x hx hnd]

/-- Witness for `mul_derivative_rules`: a binary and a ternary `Mul` node
with concrete cached values and adjoints. -/
theorem mul_derivative_witness :
    (derivMul [⟨0,0⟩, ⟨0,0⟩, ⟨2,2⟩] (fun n => (n : ℚ) + 1) (fun n => (n : ℚ) + 2) 2
        (fun _ => 0) 0
      = (fun n => (n : ℚ) + 2) (leftChildIdx 2)
          * (fun n => (n : ℚ) + 1) (rightChildIdx [⟨0,0⟩, ⟨0,0⟩, ⟨2,2⟩] 2))
    ∧ (derivMul [⟨0,0⟩, ⟨0,0⟩, ⟨0,0⟩, ⟨3,3⟩] (fun n => (n : ℚ) + 1) (fun n => (n : ℚ) + 2) 3
        (fun _ => 0) 1
      = (fun n => (n : ℚ) + 2)
            ((childIndices [⟨0,0⟩, ⟨0,0⟩, ⟨0,0⟩, ⟨3,3⟩] 3).get ⟨1, by decide⟩)
          * (((childIndices [⟨0,0⟩, ⟨0,0⟩, ⟨0,0⟩, ⟨3,3⟩] 3).eraseIdx 1).map
              (fun n => (n : ℚ) + 1)).prod) :=
  ⟨((mul_derivative_rules [⟨0,0⟩, ⟨0,0⟩, ⟨2,2⟩] _ _ 2 _).1 (by decide)).1,
   (mul_derivative_rules [⟨0,0⟩, ⟨0,0⟩, ⟨0,0⟩, ⟨3,3⟩] _ _ 3 _).2 (by decide) (by decide)
     1 (by decide)⟩

/-! ## The `Grow` tree creator

Embeds `Grow` and `GrowTreeCreator::operator()` from
`src/operators/initialization.hpp`.  The random generator together with the
grammar's weighted sampling is abstracted by the draw stream
`ar : Nat → Nat`: draw number `t` yields a node of arity `ar t` (for
`SampleProportional`, any enabled arity may come out, so every stream is a
possible execution; the `maxDepth == 0` branch draws once to pick a
constant-vs-variable leaf, always of arity 0).  Only the shape of the
produced tree matters for the claim, so a tree is the ordinal tree of its
node arities; the `vector<Node>` the C++ pushes is its preorder listing and
`gsize` counts exactly the `push_back` calls.  Note that `Grow` receives
`maxLength` but never reads it. -/

inductive GTree where
  | node : List GTree → GTree

mutual

def gsize : GTree → Nat
  | .node cs => 1 + gsizeList cs

def gsizeList : List GTree → Nat
  | [] => 0
  | t :: ts => gsize t + gsizeList ts

end

mutual

/-- Nesting depth: number of nested levels below the root (a lone leaf has
depth 0). -/
def gdepth : GTree → Nat
  | .node cs => gdepthList cs

def gdepthList : List GTree → Nat
  | [] => 0
  | t :: ts => max (gdepth t + 1) (gdepthList ts)

end

/-- `Grow(random, grammar, variables, nodes, partials, maxLength, maxDepth)`:
with depth budget 0 draw one leaf; otherwise draw a node and grow one
subtree per arity slot with budget one less.  Returns the subtree together
with the next draw-stream position. -/
def growAux (ar : Nat → Nat) : Nat → Nat → GTree × Nat
  | 0, t => (GTree.node [], t + 1)
  | d + 1, t =>
    let a := ar t
    let r := (List.range a).foldl
      (fun acc _ => let p := growAux ar d acc.2; (acc.1 ++ [p.1], p.2)) ([], t + 1)
    (GTree.node r.1, r.2)

/-- `GrowTreeCreator::operator()`: draw the root, then grow `root.Arity`
subtrees, each with depth budget `maxDepth - 1`.  `maxLength` is carried
exactly as in the C++ source: passed down to `Grow` and never used.  (The
later loop assigning variable hashes and the final reverse do not change
the tree's shape.) -/
def growTreeCreator (ar : Nat → Nat) (maxDepth maxLength : Nat) : GTree :=
  let r := (List.range (ar 0)).foldl
    (fun acc _ => let p := growAux ar (maxDepth - 1) acc.2; (acc.1 ++ [p.1], p.2)) ([], 1)
  GTree.node r.1

/-- C8 counterexample: with every draw yielding a binary node,
`GrowTreeCreator` configured with `maxDepth = 2`, `maxLength = 1` produces
a tree of 7 nodes — the node count is not bounded by `maxLength` (the
`Grow` routine never reads it). -/
theorem grow_creator_exceeds_max_length :
    gsize (growTreeCreator (fun _ => 2) 2 1) = 7 ∧ 7 > 1 := by
  constructor
  · rfl
  · decide

lemma gdepthList_le (d : Nat) :
    ∀ (cs : List GTree), (∀ c ∈ cs, gdepth c ≤ d) → gdepthList cs ≤ d + 1 := by
  intro cs
  induction cs with
  | nil => intro _; simp [gdepthList]
  | cons t ts ih =>
    intro h
    show max (gdepth t + 1) (gdepthList ts) ≤ d + 1
    have h1 : gdepth t + 1 ≤ d + 1 := Nat.succ_le_succ (h t (List.mem_cons_self _ _))
    have h2 : gdepthList ts ≤ d + 1 := ih (fun c hc => h c (List.mem_cons_of_mem _ hc))
    omega

lemma growAux_children_depth (ar : Nat → Nat) :
    ∀ (d t : Nat), gdepth (growAux ar d t).1 ≤ d := by
  intro d
  induction d with
  | zero => intro t; show gdepth (GTree.node []) ≤ 0; simp [gdepth, gdepthList]
  | succ d ih =>
    intro t
    show gdepth (GTree.node ((List.range (ar t)).foldl _ ([], t + 1)).1) ≤ d + 1
    have hfold : ∀ (l : List Nat) (acc : List GTree × Nat),
        (∀ c ∈ acc.1, gdepth c ≤ d) →
        ∀ c ∈ (l.foldl (fun acc _ => let p := growAux ar d acc.2;
            (acc.1 ++ [p.1], p.2)) acc).1, gdepth c ≤ d := by
      intro l
      induction l with
      | nil => intro acc hacc; simpa using hacc
      | cons y ys ihl =>
        intro acc hacc
        apply ihl
        intro c hc
        rcases List.mem_append.mp hc with hc | hc
        · exact hacc c hc
        · have : c = (growAux ar d acc.2).1 := by simpa using hc
          rw [this]
          exact ih acc.2
    have hall := hfold (List.range (ar t)) ([], t + 1) (by simp)
    show gdepthList ((List.range (ar t)).foldl _ ([], t + 1)).1 ≤ d + 1
    exact gdepthList_le d _ hall

/-- C8 (amended): for `maxDepth ≥ 1` every tree produced by
`GrowTreeCreator` has nesting depth at most `maxDepth` (the node count,
however, is *not* bounded by `maxLength`, which `Grow` ignores — see the
counterexample). -/
theorem grow_creator_depth_bounded (ar : Nat → Nat) (maxDepth maxLength : Nat)
    (hd : 1 ≤ maxDepth) :
    gdepth (growTreeCreator ar maxDepth maxLength) ≤ maxDepth := by
  unfold growTreeCreator
  show gdepthList ((List.range (ar 0)).foldl _ ([], 1)).1 ≤ maxDepth
  have hfold : ∀ (l : List Nat) (acc : List GTree × Nat),
      (∀ c ∈ acc.1, gdepth c ≤ maxDepth - 1) →
      ∀ c ∈ (l.foldl (fun acc _ => let p := growAux ar (maxDepth - 1) acc.2;
          (acc.1 ++ [p.1], p.2)) acc).1, gdepth c ≤ maxDepth - 1 := by
    intro l
    induction l with
    | nil => intro acc hacc; simpa using hacc
    | cons y ys ihl =>
      intro acc hacc
      apply ihl
      intro c hc
      rcases List.mem_append.mp hc with hc | hc
      · exact hacc c hc
      · have : c = (growAux ar (maxDepth - 1) acc.2).1 := by simpa using hc
        rw [this]
        exact growAux_children_depth ar (maxDepth - 1) acc.2
  have hall := hfold (List.range (ar 0)) ([], 1) (by simp)
  have := gdepthList_le (maxDepth - 1) _ hall
  omega

/-- Witness for `grow_creator_depth_bounded`: the all-binary draw stream
with `maxDepth = 2`. -/
theorem grow_creator_depth_witness :
    gdepth (growTreeCreator (fun _ => 2) 2 1) ≤ 2 :=
  grow_creator_depth_bounded (fun _ => 2) 2 1 (by decide)

/-! ## `GeneticProgrammingAlgorithm::Run` — creation/evaluation phases

Models the `create`/`evaluate` lambdas of `Run` (`algorithms/gp.hpp`)
together with the thread scheduling of the two `std::for_each(par_unseq)`
dispatches, to examine determinism with respect to scheduling.

Modelled from the spec: `operon::rand_t` (the random-generator header is
not among the sources) is abstracted as a seed plus a draw counter, draw
`c` of seed `s` yielding `s * 1000003 + c`; the pluggable Evaluator
(`(rng, individual) → scalar`, §6) is modelled as consuming one draw from
the generator it is handed, and the Creator as consuming one draw after
reseeding.  What matters for the claim is only *which generator state*
each phase hands to the per-slot work item:

* `create(i)` first executes `rndlocal = operon::rand_t{seeds[i]}` — it
  reseeds the executing thread's `thread_local` generator from the
  up-front seed table;
* `evaluate` (the initial-population evaluation pass) calls
  `evaluator(rndlocal, ind)` *without* reseeding: it uses whatever state
  the executing thread's generator was left in. -/

structure Rng where
  seed : Nat
  ctr : Nat
deriving DecidableEq, Repr

def Rng.next (g : Rng) : Nat × Rng :=
  (g.seed * 1000003 + g.ctr, ⟨g.seed, g.ctr + 1⟩)

/-- A work item of the two phases: `create i` or `eval i` for slot `i`. -/
inductive PhaseOp where
  | create : Nat → PhaseOp
  | eval : Nat → PhaseOp
deriving DecidableEq, Repr

/-- Machine state: one `thread_local rndlocal` per thread, and per slot the
pair (genotype draw, fitness draw). -/
structure MState where
  threads : Nat → Rng
  geno : Nat → Nat
  fitn : Nat → Nat

/-- One scheduled work item `(thread, op)` of `Run`'s initialization:
`create` reseeds the thread generator from `seeds[i]` and draws the
genotype; `eval` draws the fitness from the thread generator as-is. -/
def phaseStep (seeds : Nat → Nat) (s : MState) : Nat × PhaseOp → MState
  | (t, PhaseOp.create i) =>
    let g0 : Rng := ⟨seeds i, 0⟩
    let p := g0.next
    { threads := fun u => if u = t then p.2 else s.threads u
      geno := fun u => if u = i then p.1 else s.geno u
      fitn := s.fitn }
  | (t, PhaseOp.eval i) =>
    let p := (s.threads t).next
    { threads := fun u => if u = t then p.2 else s.threads u
      geno := s.geno
      fitn := fun u => if u = i then p.1 else s.fitn u }

def runSchedule (seeds : Nat → Nat) (s : MState) (sched : List (Nat × PhaseOp)) : MState :=
  sched.foldl (phaseStep seeds) s

def initState : MState := ⟨fun _ => ⟨0, 0⟩, fun _ => 0, fun _ => 0⟩

/-- The schedule where a single thread creates both slots and then
evaluates both. -/
def schedOneThread : List (Nat × PhaseOp) :=
  [(0, PhaseOp.create 0), (0, PhaseOp.create 1), (0, PhaseOp.eval 0), (0, PhaseOp.eval 1)]

/-- The schedule where thread 0 handles slot 0 and thread 1 handles
slot 1 — same seed table, same phase ordering (all creation before any
evaluation), different thread assignment. -/
def schedTwoThreads : List (Nat × PhaseOp) :=
  [(0, PhaseOp.create 0), (1, PhaseOp.create 1), (0, PhaseOp.eval 0), (1, PhaseOp.eval 1)]

/-- C5 counterexample: two phase-ordered schedules of the same seeded run
(every slot created before any evaluation, each slot created and evaluated
exactly once) produce different fitness values for slot 0, because the
evaluation pass reads the executing thread's generator without reseeding
it from the seed table.  The claim that the random decisions for a slot
are independent of thread scheduling is therefore false for evaluation. -/
theorem run_evaluation_schedule_dependent :
    (runSchedule (fun i => i + 1) initState schedOneThread).fitn 0
      ≠ (runSchedule (fun i => i + 1) initState schedTwoThreads).fitn 0 := by
  decide

/-- No work item other than a `create` for slot `i` ever writes slot `i`'s
genotype. -/
lemma geno_preserved (seeds : Nat → Nat) (i v : Nat) :
    ∀ (sched : List (Nat × PhaseOp)) (s : MState),
      s.geno i = v → (∀ u, (u, PhaseOp.create i) ∉ sched) →
      (runSchedule seeds s sched).geno i = v := by
  intro sched
  induction sched with
  | nil => intro s h _; exact h
  | cons op2 rest2 ih2 =>
    intro s h hnot
    show (runSchedule seeds (phaseStep seeds s op2) rest2).geno i = v
    apply ih2
    · rcases op2 with ⟨u, jj | jj⟩
      · show (phaseStep seeds s (u, PhaseOp.create jj)).geno i = v
        have hji : jj ≠ i := by
          intro hEq2
          exact hnot u (by simp [hEq2])
        have hij : i ≠ jj := fun hEq2 => hji hEq2.symm
        simp [phaseStep, hij, h]
      · show (phaseStep seeds s (u, PhaseOp.eval jj)).geno i = v
        simp [phaseStep, h]
    · intro u hu
      exact hnot u (List.mem_cons_of_mem _ hu)

/-- C5 (amended): slot creation *is* schedule-independent — `create(i)`
reseeds the thread-local generator from `seeds[i]`, so whenever a schedule
contains a `create i` item (on any thread, in any position), the final
genotype of slot `i` is the fixed function `seeds i * 1000003` of its seed,
independent of threads and of the rest of the schedule. -/
theorem run_creation_schedule_independent (seeds : Nat → Nat) (i : Nat)
    (sched : List (Nat × PhaseOp)) (s : MState)
    (hc : ∃ t, (t, PhaseOp.create i) ∈ sched) :
    (runSchedule seeds s sched).geno i = seeds i * 1000003 := by
  induction sched generalizing s with
  | nil => simp at hc
  | cons op rest ih =>
    obtain ⟨t, ht⟩ := hc
    rcases List.mem_cons.mp ht with hEq | hrest
    · by_cases hr : ∃ u, (u, PhaseOp.create i) ∈ rest
      · exact ih (phaseStep seeds s op) hr
      · show (runSchedule seeds (phaseStep seeds s op) rest).geno i = seeds i * 1000003
        apply geno_preserved
        · rw [← hEq]
          simp [phaseStep, Rng.next]
        · intro u hu
          exact hr ⟨u, hu⟩
    · exact ih (phaseStep seeds s op) ⟨t, hrest⟩

/-- Witness for `run_creation_schedule_independent` on the two-thread
schedule. -/
theorem run_creation_witness :
    (runSchedule (fun i => i + 1) initState schedTwoThreads).geno 0 = 1 * 1000003 :=
  run_creation_schedule_independent (fun i => i + 1) 0 schedTwoThreads initState
    ⟨0, by decide⟩

/-! ## `GeneticProgrammingAlgorithm::Run` — the generation loop

Models the `for (generation = 0; generation < config.Generations; ++generation)`
loop of `Run`.  Only the primary fitness values matter for the remaining
claims, so a population is the list of its individuals' `Fitness[Idx]`.
The pluggable Recombinator is abstracted by

* `rterm g` — the value the shared `terminate` flag holds after generation
  `g`'s offspring production (the last `recombinator.Terminate()` result
  assigned inside the `iterate` lambda), and
* `tails g` — the fitness values filling offspring slots `1..` during
  generation `g` (produced recombinants, backfilled parents, or stale
  buffer contents), while slot 0 unconditionally receives the best parent.

`Run` returns no value; the loop model returns the final parent
population together with the number of reporting-callback invocations and
the number of completed generations (offspring productions + swaps). -/

/-- The `1e-6` convergence threshold. -/
def convEps : ℚ := 1 / 1000000

/-- The best primary fitness of a population: `std::minmax_element` with
`lhs.Fitness[Idx] < rhs.Fitness[Idx]`, taking the max element when
maximizing and the min element when minimizing. -/
def bestFitness (maxi : Bool) (parents : List ℚ) : ℚ :=
  if maxi then parents.foldl max (parents.headD 0)
  else parents.foldl min (parents.headD 0)

/-- `(Max && |1 - best| < 1e-6) || (!Max && |best| < 1e-6)`. -/
def converged (maxi : Bool) (b : ℚ) : Bool :=
  if maxi then decide (|1 - b| < convEps) else decide (|b| < convEps)

/-- The loop body, by remaining generation count `r` (the loop runs while
`generation < Generations`).  Per iteration: find the best parent, set the
termination flag on convergence, invoke the report callback, check the
flag, and otherwise produce offspring (slot 0 = copy of best) and swap. -/
def runFrom (maxi : Bool) (rterm : Nat → Bool) (tails : Nat → List ℚ) :
    Nat → Nat → Bool → List ℚ → List ℚ × Nat × Nat
  | 0, _, _, parents => (parents, 0, 0)
  | r + 1, g, flag, parents =>
    let flag2 := flag || converged maxi (bestFitness maxi parents)
    if flag2 then (parents, 1, 0)
    else
      let res := runFrom maxi rterm tails r (g + 1) (rterm g)
        (bestFitness maxi parents :: tails g)
      (res.1, res.2.1 + 1, res.2.2 + 1)

/-- `Run`'s generation loop from a freshly evaluated parent population:
the `terminate` flag starts false. -/
def RunGen (maxi : Bool) (gens : Nat) (rterm : Nat → Bool) (tails : Nat → List ℚ)
    (p0 : List ℚ) : List ℚ × Nat × Nat :=
  runFrom maxi rterm tails gens 0 false p0

/-- The sequence of parent populations the loop produces when no
termination condition fires: each generation keeps the best parent in
slot 0 and fills the other slots from the recombination outcome. -/
def popsSeq (maxi : Bool) (tails : Nat → List ℚ) (p0 : List ℚ) : Nat → List ℚ
  | 0 => p0
  | g + 1 => bestFitness maxi (popsSeq maxi tails p0 g) :: tails g

lemma runFrom_counts (maxi : Bool) (rterm : Nat → Bool) (tails : Nat → List ℚ)
    (p0 : List ℚ) (hr : ∀ g, rterm g = false) :
    ∀ (r g : Nat),
      (∀ j < r, converged maxi (bestFitness maxi (popsSeq maxi tails p0 (g + j))) = false) →
      runFrom maxi rterm tails r g false (popsSeq maxi tails p0 g)
        = (popsSeq maxi tails p0 (g + r), r, r) := by
  intro r
  induction r with
  | zero => intro g _; simp [runFrom]
  | succ r ih =>
    intro g hc
    have h0 : converged maxi (bestFitness maxi (popsSeq maxi tails p0 g)) = false := by
      simpa using hc 0 (by omega)
    have hnext : bestFitness maxi (popsSeq maxi tails p0 g) :: tails g
        = popsSeq maxi tails p0 (g + 1) := rfl
    show (let flag2 := false || converged maxi (bestFitness maxi (popsSeq maxi tails p0 g));
      if flag2 then (popsSeq maxi tails p0 g, 1, 0)
      else
        let res := runFrom maxi rterm tails r (g + 1) (rterm g)
          (bestFitness maxi (popsSeq maxi tails p0 g) :: tails g)
        (res.1, res.2.1 + 1, res.2.2 + 1)) = (popsSeq maxi tails p0 (g + (r + 1)), r + 1, r + 1)
    rw [hnext]
    simp only [h0, Bool.false_or, if_neg (Bool.false_ne_true), hr g]
    have harith : g + 1 + r = g + (r + 1) := by omega
    have := ih (g + 1) (fun j hj => by
      have h2 := hc (j + 1) (by omega)
      have : g + (j + 1) = g + 1 + j := by omega
      rwa [this] at h2)
    rw [this, harith]

/-- C6: the reporting callback is invoked before the termination check.
(a) With `Generations = 10`, the Recombinator never signalling termination
and the convergence test never firing, the loop completes exactly 10
generations and the callback fires exactly 10 times.  (b) In any run whose
very first generation already meets the termination condition, the
callback still fires for that final generation (1 report, 0 further
generations produced). -/
theorem report_before_termination_check (maxi : Bool) (rterm : Nat → Bool)
    (tails : Nat → List ℚ) (p0 : List ℚ)
    (hr : ∀ g, rterm g = false)
    (hc : ∀ g < 10, converged maxi (bestFitness maxi (popsSeq maxi tails p0 g)) = false) :
    RunGen maxi 10 rterm tails p0 = (popsSeq maxi tails p0 10, 10, 10)
    ∧ (∀ (maxi2 : Bool) (rterm2 : Nat → Bool) (tails2 : Nat → List ℚ) (q0 : List ℚ)
         (gens : Nat), 0 < gens → converged maxi2 (bestFitness maxi2 q0) = true →
           RunGen maxi2 gens rterm2 tails2 q0 = (q0, 1, 0)) := by
  constructor
  · have := runFrom_counts maxi rterm tails p0 hr 10 0 (by simpa using hc)
    simpa [RunGen] using this
  · intro maxi2 rterm2 tails2 q0 gens hgens hconv
    cases gens with
    | zero => omega
    | succ r =>
      show (let flag2 := false || converged maxi2 (bestFitness maxi2 q0);
        if flag2 then (q0, 1, 0)
        else
          let res := runFrom maxi2 rterm2 tails2 r 1 (rterm2 0)
            (bestFitness maxi2 q0 :: tails2 0)
          (res.1, res.2.1 + 1, res.2.2 + 1)) = (q0, 1, 0)
      simp [hconv]

lemma pops_const_one_best :
    ∀ g, bestFitness false (popsSeq false (fun _ => [1]) [1] g) = 1 := by
  intro g
  induction g with
  | zero =>
    show bestFitness false [1] = 1
    simp [bestFitness]
  | succ g ih =>
    show bestFitness false (bestFitness false (popsSeq false (fun _ => [1]) [1] g) :: [1]) = 1
    rw [ih]
    simp [bestFitness]

/-- Witness for `report_before_termination_check`: a constant population
`[1]` under minimization never converges (`|1| ≥ 1e-6`), so ten
generations run and ten reports fire; a population `[0]` converges at
once and is still reported. -/
theorem report_counts_witness :
    RunGen false 10 (fun _ => false) (fun _ => [1]) [1]
      = (popsSeq false (fun _ => [1]) [1] 10, 10, 10)
    ∧ (∀ (maxi2 : Bool) (rterm2 : Nat → Bool) (tails2 : Nat → List ℚ) (q0 : List ℚ)
         (gens : Nat), 0 < gens → converged maxi2 (bestFitness maxi2 q0) = true →
           RunGen maxi2 gens rterm2 tails2 q0 = (q0, 1, 0)) :=
  report_before_termination_check false (fun _ => false) (fun _ => [1]) [1]
    (fun _ => rfl)
    (by
      intro g _
      rw [pops_const_one_best g]
      unfold converged convEps
      norm_num)

/-! ### Non-finite fitness substitution -/

/-- A floating-point scalar as the `evaluate` lambda sees it: either a
finite value or one of the non-finite classes. -/
inductive FpVal where
  | val : ℚ → FpVal
  | nan : FpVal
  | posInf : FpVal
  | negInf : FpVal
deriving DecidableEq

/-- `std::isfinite`. -/
def FpVal.isFinite : FpVal → Bool
  | .val _ => true
  | _ => false

/-- `operon::scalar::max()` — the largest finite scalar; the exact value of
the IEEE double maximum. -/
def scalarMaxQ : ℚ := 2 ^ 1024 - 2 ^ 971

def scalarMax : FpVal := .val scalarMaxQ

def scalarMin : FpVal := .val (-scalarMaxQ)

/-- `const auto worst = Max ? operon::scalar::min() : operon::scalar::max()`. -/
def worstFitness (maxi : Bool) : FpVal := if maxi then scalarMin else scalarMax

/-- The `evaluate` lambda's store:
`ind.Fitness[Idx] = std::isfinite(fitness) ? fitness : worst`. -/
def storeFitness (maxi : Bool) (fitness : FpVal) : FpVal :=
  if fitness.isFinite then fitness else worstFitness maxi

/-- C7: whatever the Evaluator returns, the value stored as the primary
fitness is finite; finite results are stored unchanged and non-finite ones
are replaced by the configured worst sentinel — the scalar maximum when
minimizing and the scalar minimum when maximizing — so non-finite values
never reach ranking or selection. -/
theorem nonfinite_fitness_replaced (maxi : Bool) (f : FpVal) :
    (storeFitness maxi f).isFinite = true
    ∧ (f.isFinite = true → storeFitness maxi f = f)
    ∧ (f.isFinite = false → storeFitness maxi f = worstFitness maxi)
    ∧ worstFitness false = scalarMax ∧ worstFitness true = scalarMin := by
  refine ⟨?_, ?_, ?_, rfl, rfl⟩
  · unfold storeFitness
    cases f with
    | val q => rfl
    | nan => cases maxi <;> rfl
    | posInf => cases maxi <;> rfl
    | negInf => cases maxi <;> rfl
  · intro h
    unfold storeFitness
    rw [h]
    rfl
  · intro h
    unfold storeFitness
    rw [h]
    rfl

/-- Witness for `nonfinite_fitness_replaced`: a NaN fitness under
minimization is stored as the scalar maximum; a finite fitness is kept. -/
theorem nonfinite_fitness_witness :
    (storeFitness false FpVal.nan).isFinite = true
    ∧ storeFitness false FpVal.nan = worstFitness false
    ∧ storeFitness false (FpVal.val 3) = FpVal.val 3 :=
  ⟨(nonfinite_fitness_replaced false FpVal.nan).1,
   (nonfinite_fitness_replaced false FpVal.nan).2.2.1 rfl,
   (nonfinite_fitness_replaced false (FpVal.val 3)).2.1 rfl⟩

/-! ### Elitism monotonicity -/

lemma foldl_max_ge : ∀ (l : List ℚ) (a : ℚ), a ≤ l.foldl max a := by
  intro l
  induction l with
  | nil => intro a; simp
  | cons x xs ih =>
    intro a
    exact le_trans (le_max_left a x) (ih (max a x))

lemma foldl_min_le : ∀ (l : List ℚ) (a : ℚ), l.foldl min a ≤ a := by
  intro l
  induction l with
  | nil => intro a; simp
  | cons x xs ih =>
    intro a
    exact le_trans (ih (min a x)) (min_le_left a x)

/-- C9: the best primary fitness of generation `g+1`'s parents is never
worse than generation `g`'s best — never smaller when maximizing, never
greater when minimizing — because offspring slot 0 unconditionally holds a
copy of the best parent before the swap. -/
theorem elite_monotonic (maxi : Bool) (tails : Nat → List ℚ) (p0 : List ℚ) (g : Nat) :
    if maxi then
      bestFitness maxi (popsSeq maxi tails p0 g)
        ≤ bestFitness maxi (popsSeq maxi tails p0 (g + 1))
    else
      bestFitness maxi (popsSeq maxi tails p0 (g + 1))
        ≤ bestFitness maxi (popsSeq maxi tails p0 g) := by
  cases maxi with
  | true =>
    show bestFitness true (popsSeq true tails p0 g)
        ≤ bestFitness true (popsSeq true tails p0 (g + 1))
    have h2 : popsSeq true tails p0 (g + 1)
        = bestFitness true (popsSeq true tails p0 g) :: tails g := rfl
    rw [h2]
    have h1 : bestFitness true (bestFitness true (popsSeq true tails p0 g) :: tails g)
        = (tails g).foldl max (max (bestFitness true (popsSeq true tails p0 g))
            (bestFitness true (popsSeq true tails p0 g))) := rfl
    rw [h1, max_self]
    exact foldl_max_ge (tails g) _
  | false =>
    show bestFitness false (popsSeq false tails p0 (g + 1))
        ≤ bestFitness false (popsSeq false tails p0 g)
    have h2 : popsSeq false tails p0 (g + 1)
        = bestFitness false (popsSeq false tails p0 g) :: tails g := rfl
    rw [h2]
    have h1 : bestFitness false (bestFitness false (popsSeq false tails p0 g) :: tails g)
        = (tails g).foldl min (min (bestFitness false (popsSeq false tails p0 g))
            (bestFitness false (popsSeq false tails p0 g))) := rfl
    rw [h1, min_self]
    exact foldl_min_le (tails g) _

end Operon
